import Mathlib

/-!
Verification of the auxknow streamed-answer assembly pipeline.

This file shallowly embeds the Python sources of the repository:

* `src/auxknow/common/stream_processor.py` — `StreamBuffer`,
  `StreamProcessor.extract_think_block`, `StreamProcessor.process_stream`;
* `src/auxknow/engine/auxknow.py` — `AuxKnow.ask_stream`, `AuxKnow.ask`,
  `AuxKnow._clean_ask_response`, `AuxKnow._extract_citations_from_response`;
* the marker/apology constants of `src/auxknow/common/constants.py`.

Modelling conventions:

* Python strings are `List Char`; `str.find` is `findSub` (Python's `-1`
  is `none`); `s[i:]` is `List.drop i s`; `s[:i]` is `List.take i s`.
* `list(set(xs))` is `List.dedup xs`.  CPython returns the elements in an
  unspecified order, so only membership in a citation list is meaningful;
  every claim about citations is stated in terms of membership.
* Exceptions: the bodies guarded by `try`/`except` in
  `extract_think_block` and around the citation extractor consist of
  total string/list operations, so the handlers are unreachable and the
  embedding is total.  Provider failures (the `except` blocks of
  `ask`/`ask_stream`) are modelled explicitly by outcome types.
* The `id` field of `AuxKnowAnswer` (a fresh uuid per call) and the
  logging/`update_context_callback` side effects are omitted: no claim
  refers to them.
-/

namespace AuxKnow

/-! ## Python string primitives -/

/-- Python `hay.find(pat)`: index of the first occurrence of `pat` in
`hay` (`some i`), or `none` where Python returns `-1`.  Like Python,
`find` of the empty pattern returns `0`. -/
def findSub (hay pat : List Char) : Option Nat :=
  if pat.isPrefixOf hay then some 0
  else
    match hay with
    | [] => none
    | _ :: t => (findSub t pat).map (· + 1)

theorem isPrefixOf_iff {l₁ l₂ : List Char} : l₁.isPrefixOf l₂ = true ↔ l₁ <+: l₂ :=
  List.isPrefixOf_iff_prefix

/-- If `findSub` finds the pattern, the pattern occurs in the text. -/
theorem findSub_some_isInf {hay pat : List Char} {i : Nat}
    (h : findSub hay pat = some i) : pat <:+: hay := by
  induction hay generalizing i with
  | nil =>
    rw [findSub] at h
    split at h
    · exact (isPrefixOf_iff.mp (by assumption)).isInfix
    · simp at h
  | cons c t ih =>
    rw [findSub] at h
    split at h
    · exact (isPrefixOf_iff.mp (by assumption)).isInfix
    · simp only [Option.map_eq_some'] at h
      obtain ⟨j, hj, _⟩ := h
      exact (ih hj).trans (List.suffix_cons c t).isInfix

/-- If the pattern does not occur in the text, `findSub` fails. -/
theorem findSub_eq_none {hay pat : List Char} (h : ¬ pat <:+: hay) :
    findSub hay pat = none := by
  cases hfs : findSub hay pat with
  | none => rfl
  | some i => exact absurd (findSub_some_isInf hfs) h

/-- A successful `findSub` leaves room for the pattern:
`i + pat.length ≤ hay.length`. -/
theorem findSub_some_bound {hay pat : List Char} {i : Nat}
    (h : findSub hay pat = some i) : i + pat.length ≤ hay.length := by
  induction hay generalizing i with
  | nil =>
    rw [findSub] at h
    split at h
    · cases h
      have hp : pat = [] := List.prefix_nil.mp (isPrefixOf_iff.mp (by assumption))
      simp [hp]
    · simp at h
  | cons c t ih =>
    rw [findSub] at h
    split at h
    · cases h
      simpa using (isPrefixOf_iff.mp (by assumption)).length_le
    · simp only [Option.map_eq_some'] at h
      obtain ⟨j, hj, hji⟩ := h
      subst hji
      have := ih hj
      simp only [List.length_cons]
      omega

/-- Python's `str.isspace` characters that matter here (ASCII whitespace,
as stripped by `str.strip()`). -/
def isPySpace (c : Char) : Bool :=
  c == ' ' || c == '\t' || c == '\n' || c == '\r' || c == '\x0b' || c == '\x0c'

/-- Python `s.strip()`: remove leading and trailing whitespace. -/
def pyStrip (s : List Char) : List Char :=
  ((s.dropWhile isPySpace).reverse.dropWhile isPySpace).reverse

/-- Python `s.split(sep)[1]`, used by `process_stream` on a chunk that
contains `sep`: the text between the first occurrence of `sep` and the
next occurrence (or the end of the string). -/
def split_index_one (s sep : List Char) : List Char :=
  match findSub s sep with
  | none => s
  | some i =>
    let rest := s.drop (i + sep.length)
    match findSub rest sep with
    | none => rest
    | some j => rest.take j

/-! ## Constants (src/auxknow/common/constants.py) -/

/-- `Constants.STREAM_BLOCK_START` / `THINK_BLOCK_START`. -/
def thinkStart : List Char := "<think>".toList

/-- `Constants.STREAM_BLOCK_END` / `THINK_BLOCK_END`. -/
def thinkEnd : List Char := "</think>".toList

/-- The apology yielded by `AuxKnow.ask_stream` when the provider call or
the chunk source raises. -/
def STREAM_ERROR_ANSWER : List Char :=
  "Sorry, can't provide an answer right now. Please try again later!".toList

/-- `Constants.ERROR_DEFAULT`, returned by blocking `AuxKnow.ask` when the
provider call raises. -/
def ERROR_DEFAULT : List Char :=
  "Sorry, AuxKnow can't provide an answer right now. Please try again later!".toList

/-! ## Data model -/

/-- `StreamBuffer` (src/auxknow/common/stream_processor.py, lines 13-28). -/
structure StreamBuffer where
  content : List Char := []
  is_in_think_block : Bool := false
  full_answer : List Char := []
  citations : List (List Char) := []
deriving Repr, DecidableEq

/-- `AuxKnowAnswer` (src/auxknow/common/models.py); the uuid `id` field is
omitted (no claim mentions it). -/
structure AuxKnowAnswer where
  answer : List Char
  citations : List (List Char)
  is_final : Bool
deriving Repr, DecidableEq

/-- One item of the provider's response stream, as consumed by
`process_stream`: `response.choices[0].delta.content` (nullable) and the
optional `citations` attribute (`none` models `hasattr` being false). -/
structure ChunkResponse where
  content : Option (List Char)
  citations : Option (List (List Char)) := none
deriving Repr, DecidableEq

/-- The pluggable `citation_extractor`; `process_stream` applies it to
`buffer.full_answer`.  Exceptions it may raise are swallowed by the
`try`/`except` at each call site, so it is modelled total. -/
abbrev CitationExtractor := List Char → List (List Char)

/-! ## StreamProcessor.extract_think_block
(src/auxknow/common/stream_processor.py, lines 50-101).

The Python method mutates the buffer and returns `Optional[str]`; the
embedding returns the result together with the updated buffer.  The
`except` branch is unreachable (`str.find` and slicing are total). -/

def extract_think_block (b : StreamBuffer) : Option (List Char) × StreamBuffer :=
  if b.is_in_think_block then
    match findSub b.content thinkEnd with
    | none => (none, b)
    | some end_idx =>
      let content := b.content.drop (end_idx + thinkEnd.length)
      (some content, { b with content := content, is_in_think_block := false })
  else
    match findSub b.content thinkStart with
    | none =>
      if b.content = [] then (none, b)
      else (some b.content, { b with content := [] })
    | some start_idx =>
      if 0 < start_idx then
        (some (b.content.take start_idx),
          { b with content := b.content.drop (start_idx + thinkStart.length),
                   is_in_think_block := true })
      else
        (none, { b with content := b.content.drop (start_idx + thinkStart.length),
                        is_in_think_block := true })

/-- `extract_think_block` never touches `full_answer` or `citations`. -/
theorem extract_preserves_answer (b : StreamBuffer) :
    (extract_think_block b).2.full_answer = b.full_answer ∧
    (extract_think_block b).2.citations = b.citations := by
  unfold extract_think_block
  split <;> split <;> (try split) <;> simp

/-- Whenever `extract_think_block` returns a non-empty extracted string,
the buffer content strictly shrinks (the measure of the drain loop). -/
theorem extract_shrinks {b : StreamBuffer} {s : List Char} {b' : StreamBuffer}
    (h : extract_think_block b = (some s, b')) (hs : s ≠ []) :
    b'.content.length < b.content.length := by
  unfold extract_think_block at h
  split at h
  · -- inside a think block
    split at h
    · simp at h
    · next end_idx hfind =>
      have hb := findSub_some_bound hfind
      have h8 : thinkEnd.length = 8 := by decide
      simp only [Prod.mk.injEq] at h
      obtain ⟨-, h2⟩ := h
      subst h2
      simp only [List.length_drop]
      omega
  · -- outside a think block
    split at h
    · -- no start marker: the whole (non-empty) content is flushed
      split at h
      · simp at h
      · next hne =>
        simp only [Prod.mk.injEq] at h
        obtain ⟨h1, h2⟩ := h
        subst h2
        simp only [List.length_nil]
        cases h1
        exact List.length_pos.mpr hne
    · next start_idx hfind =>
      have hb := findSub_some_bound hfind
      have h7 : thinkStart.length = 7 := by decide
      split at h
      · simp only [Prod.mk.injEq] at h
        obtain ⟨-, h2⟩ := h
        subst h2
        simp only [List.length_drop]
        omega
      · simp at h

/-- When `extract_think_block` makes no progress (returns `None` or the
empty string — both falsy in Python), the resulting buffer is either empty
or inside a think block.  This is the reason the "remaining content" final
branch of `process_stream` is dead code. -/
theorem extract_stuck {b : StreamBuffer} {r : Option (List Char)} {b' : StreamBuffer}
    (h : extract_think_block b = (r, b')) (hr : r = none ∨ r = some []) :
    b'.content = [] ∨ b'.is_in_think_block = true := by
  unfold extract_think_block at h
  split at h
  · next hin =>
    split at h
    · simp only [Prod.mk.injEq] at h
      obtain ⟨-, h2⟩ := h
      subst h2
      right; exact hin
    · simp only [Prod.mk.injEq] at h
      obtain ⟨h1, h2⟩ := h
      subst h2
      rcases hr with hr | hr
      · rw [hr] at h1; simp at h1
      · rw [hr] at h1
        left
        simpa using h1.symm
  · split at h
    · split at h
      · next hemp =>
        simp only [Prod.mk.injEq] at h
        obtain ⟨-, h2⟩ := h
        subst h2
        left; exact hemp
      · next hne =>
        simp only [Prod.mk.injEq] at h
        obtain ⟨h1, -⟩ := h
        rcases hr with hr | hr
        · rw [hr] at h1; simp at h1
        · rw [hr] at h1
          exact absurd h1.symm (by simpa using hne)
    · next start_idx hfind =>
      split at h
      · next hpos =>
        simp only [Prod.mk.injEq] at h
        obtain ⟨h1, -⟩ := h
        have hb := findSub_some_bound hfind
        have h7 : thinkStart.length = 7 := by decide
        rcases hr with hr | hr
        · rw [hr] at h1; simp at h1
        · rw [hr] at h1
          have h1' : List.take start_idx b.content = [] := by simpa using h1
          have : (List.take start_idx b.content).length = 0 := by simp [h1']
          simp only [List.length_take] at this
          omega
      · simp only [Prod.mk.injEq] at h
        obtain ⟨-, h2⟩ := h
        subst h2
        right; rfl

/-! ## StreamProcessor.process_stream
(src/auxknow/common/stream_processor.py, lines 103-202).

The generator is embedded as a pure function from the list of stream
responses to the list of yielded `AuxKnowAnswer`s.  `drain_loop` is the
inner `while True:` loop (lines 159-178), `process_response` the body of
the `for response in response_stream:` loop (lines 121-178), and
`process_stream` adds the trailing section (lines 180-202). -/

def drain_loop_fuel (ex : CitationExtractor) :
    Nat → StreamBuffer → List AuxKnowAnswer × StreamBuffer
  | 0, b => ([], b)
  | fuel + 1, b =>
    match extract_think_block b with
    | (none, b1) => ([], b1)
    | (some s, b1) =>
      if s = [] then ([], b1)
      else
        -- new_citations = citation_extractor(buffer.full_answer)  (before +=)
        let b3 : StreamBuffer :=
          { content := b1.content
            is_in_think_block := b1.is_in_think_block
            full_answer := b1.full_answer ++ s
            citations :=
              if ex b1.full_answer = [] then b1.citations
              else (b1.citations ++ ex b1.full_answer).dedup }
        let res := drain_loop_fuel ex fuel b3
        (⟨s, b3.citations, false⟩ :: res.1, res.2)

/-- Python's `while True:` loop carries no fuel; the embedding runs
`drain_loop_fuel` on the bound `content.length + 1`, which
`extract_shrinks` proves sufficient: `drain_loop_none` /
`drain_loop_some_nil` / `drain_loop_cons` below recover the loop's
defining equations, so `drain_loop` is exactly the Python loop run to
quiescence. -/
def drain_loop (ex : CitationExtractor) (b : StreamBuffer) :
    List AuxKnowAnswer × StreamBuffer :=
  drain_loop_fuel ex (b.content.length + 1) b

theorem drain_loop_fuel_congr (ex : CitationExtractor) :
    ∀ f1 f2 b, b.content.length < f1 → b.content.length < f2 →
      drain_loop_fuel ex f1 b = drain_loop_fuel ex f2 b := by
  intro f1
  induction f1 with
  | zero => intro f2 b h1; omega
  | succ f1 ih =>
    intro f2 b h1 h2
    cases f2 with
    | zero => omega
    | succ f2 =>
      simp only [drain_loop_fuel]
      cases hE : extract_think_block b with
      | mk r b1 =>
        cases r with
        | none => rfl
        | some s =>
          by_cases hs : s = []
          · simp [hs]
          · simp only [if_neg hs]
            have hlt := extract_shrinks hE hs
            have := ih f2
              { content := b1.content
                is_in_think_block := b1.is_in_think_block
                full_answer := b1.full_answer ++ s
                citations :=
                  if ex b1.full_answer = [] then b1.citations
                  else (b1.citations ++ ex b1.full_answer).dedup }
              (by simpa using by omega) (by simpa using by omega)
            rw [this]

/-- The body of the `for response in response_stream:` loop. -/
def process_response (ex : CitationExtractor) (b : StreamBuffer)
    (r : ChunkResponse) : List AuxKnowAnswer × StreamBuffer :=
  -- if hasattr(response, "citations"): extend + dedup
  let b : StreamBuffer :=
    match r.citations with
    | some cs => { b with citations := (b.citations ++ cs).dedup }
    | none => b
  match r.content with
  | none => ([], b)                 -- `if not chunk: continue`
  | some chunk =>
    if chunk = [] then ([], b)      -- `if not chunk: continue`
    else if (findSub chunk thinkStart).isSome && (findSub chunk thinkEnd).isSome then
      -- the `"<think>" in chunk and "</think>" in chunk` special case
      let required := pyStrip (split_index_one chunk thinkEnd)
      -- buffer.append(required_content); full_answer += ...; buffer.clear()
      let b1 : StreamBuffer :=
        { b with content := [], full_answer := b.full_answer ++ required }
      -- new_citations = citation_extractor(buffer.full_answer)  (after +=)
      let b2 : StreamBuffer :=
        if ex b1.full_answer = [] then b1
        else { b1 with citations := (b1.citations ++ ex b1.full_answer).dedup }
      ([⟨required, b2.citations, false⟩], b2)
    else
      drain_loop ex { b with content := b.content ++ chunk }

def process_loop (ex : CitationExtractor) :
    List ChunkResponse → StreamBuffer → List AuxKnowAnswer × StreamBuffer
  | [], b => ([], b)
  | r :: rs, b =>
    let res := process_response ex b r
    let rest := process_loop ex rs res.2
    (res.1 ++ rest.1, rest.2)

/-- The trailing `if buffer.full_answer:` citation harvest (lines 180-188
of stream_processor.py); it only ever touches `buffer.citations`. -/
def final_citations (ex : CitationExtractor) (b : StreamBuffer) :
    List (List Char) :=
  if b.full_answer = [] then b.citations
  else if ex b.full_answer = [] then b.citations
  else (b.citations ++ ex b.full_answer).dedup

def process_stream (ex : CitationExtractor) (rs : List ChunkResponse) :
    List AuxKnowAnswer :=
  let res := process_loop ex rs {}
  let b : StreamBuffer := { res.2 with citations := final_citations ex res.2 }
  -- if buffer.content and not buffer.is_in_think_block: (dead in fact)
  if b.content ≠ [] ∧ b.is_in_think_block = false then
    res.1 ++ [⟨b.full_answer ++ b.content, b.citations, true⟩,
              ⟨b.full_answer ++ b.content, b.citations, true⟩]
  else
    res.1 ++ [⟨b.full_answer, b.citations, true⟩]

/-! ## The facade: AuxKnow.ask_stream and AuxKnow.ask
(src/auxknow/engine/auxknow.py). -/

/-- How the provider interaction of one `ask_stream` call can go:
`_prepare_ask_request` reports an error; the provider call or the chunk
source raises (after the source yielded the given responses); or the
stream completes. -/
inductive StreamCallOutcome where
  | prepError (msg : List Char)
  | failure (rs : List ChunkResponse)
  | success (rs : List ChunkResponse)
deriving Repr

/-- The per-event body of the `for chunk in StreamProcessor.process_stream(...)`
loop of `AuxKnow.ask_stream`: non-final events pass through; the final
event's citations fall back to `self.get_citations` when empty. -/
def finalize_event (get_citations : List Char → List (List Char))
    (ev : AuxKnowAnswer) : AuxKnowAnswer :=
  if ev.is_final then
    { ev with citations :=
        if ev.citations = [] then get_citations ev.answer else ev.citations }
  else ev

/-- `AuxKnow.ask_stream` (src/auxknow/engine/auxknow.py, lines 1239-1336).
`get_citations` is the citation fallback (`self.get_citations`, an
external provider re-query), modelled as a function of the finished
answer text.  On `failure`, the events already produced from the consumed
responses stand and the `except` branch appends the apology. -/
def ask_stream (ex : CitationExtractor) (get_citations : List Char → List (List Char))
    (o : StreamCallOutcome) : List AuxKnowAnswer :=
  match o with
  | .prepError msg => [⟨msg, [], true⟩]
  | .failure rs =>
    (process_loop ex rs {}).1 ++ [⟨STREAM_ERROR_ANSWER, [], true⟩]
  | .success rs =>
    (process_stream ex rs).map (finalize_event get_citations)

/-- `re.sub(r"<think>.*?</think>", "", s, flags=re.DOTALL)`: repeatedly
remove the span from a `<think>` to the nearest following `</think>`.
As with `drain_loop`, the recursion runs on an explicit bound
(`length + 1`, sufficient because each round removes at least the start
marker). -/
def remove_think_blocks_fuel : Nat → List Char → List Char
  | 0, s => s
  | fuel + 1, s =>
    match findSub s thinkStart with
    | none => s
    | some i =>
      match findSub (s.drop (i + thinkStart.length)) thinkEnd with
      | none => s
      | some j =>
        s.take i ++
          remove_think_blocks_fuel fuel
            ((s.drop (i + thinkStart.length)).drop (j + thinkEnd.length))

def remove_think_blocks (s : List Char) : List Char :=
  remove_think_blocks_fuel (s.length + 1) s

/-- On marker-free text the regex substitution is the identity. -/
theorem remove_think_blocks_no_marker {s : List Char}
    (h : findSub s thinkStart = none) : remove_think_blocks s = s := by
  simp only [remove_think_blocks, remove_think_blocks_fuel, h]

/-- `re.sub(r"\n{3,}", "\n\n", s)`: collapse every maximal run of three
or more newlines to exactly two. -/
def collapse_newlines_fuel : Nat → List Char → List Char
  | 0, s => s
  | _ + 1, [] => []
  | fuel + 1, c :: t =>
    if c = '\n' then
      (if 3 ≤ (t.takeWhile (· == '\n')).length + 1 then ['\n', '\n']
       else List.replicate ((t.takeWhile (· == '\n')).length + 1) '\n') ++
        collapse_newlines_fuel fuel (t.dropWhile (· == '\n'))
    else
      c :: collapse_newlines_fuel fuel t

def collapse_newlines (s : List Char) : List Char :=
  collapse_newlines_fuel (s.length + 1) s

/-- `AuxKnow._clean_ask_response` (src/auxknow/engine/auxknow.py,
lines 1211-1237).  The `except` branch is unreachable (the body is total
regex/string work). -/
def clean_ask_response (answer : List Char) : List Char :=
  if answer = [] ∨ pyStrip answer = [] then answer
  else collapse_newlines (pyStrip (remove_think_blocks answer))

/-- How the provider interaction of one blocking `ask` call can go.  On
`success`, `text` is `response.choices[0].message.content` and
`response_citations` the `citations` attribute of the response (`[]` when
absent, matching `_extract_citations_from_response`). -/
inductive AskOutcome where
  | prepError (msg : List Char)
  | failure
  | success (text : List Char) (response_citations : List (List Char))
deriving Repr

/-- `AuxKnow.ask` (src/auxknow/engine/auxknow.py, lines 1147-1209). -/
def ask (get_citations : List Char → List (List Char)) (o : AskOutcome) :
    AuxKnowAnswer :=
  match o with
  | .prepError msg => ⟨msg, [], true⟩
  | .failure => ⟨ERROR_DEFAULT, [], true⟩
  | .success text rc =>
    let clean := clean_ask_response text
    -- citations = self._extract_citations_from_response(response)
    let cs := rc.dedup
    ⟨clean, if cs = [] then get_citations clean else cs, true⟩

/-! ## Unfolding and invariant lemmas for the drain loop -/

theorem drain_loop_none (ex : CitationExtractor) (b b1 : StreamBuffer)
    (hE : extract_think_block b = (none, b1)) :
    drain_loop ex b = ([], b1) := by
  simp only [drain_loop, drain_loop_fuel, hE]

theorem drain_loop_some_nil (ex : CitationExtractor) (b b1 : StreamBuffer)
    (hE : extract_think_block b = (some [], b1)) :
    drain_loop ex b = ([], b1) := by
  simp only [drain_loop, drain_loop_fuel, hE]
  simp

theorem drain_loop_cons (ex : CitationExtractor) (b b1 : StreamBuffer) (s : List Char)
    (hE : extract_think_block b = (some s, b1)) (hs : s ≠ []) :
    drain_loop ex b =
      (let b3 : StreamBuffer :=
        { content := b1.content
          is_in_think_block := b1.is_in_think_block
          full_answer := b1.full_answer ++ s
          citations :=
            if ex b1.full_answer = [] then b1.citations
            else (b1.citations ++ ex b1.full_answer).dedup }
       let res := drain_loop ex b3
       (⟨s, b3.citations, false⟩ :: res.1, res.2)) := by
  have hlt := extract_shrinks hE hs
  have hcongr := drain_loop_fuel_congr ex b.content.length
    (({ content := b1.content
        is_in_think_block := b1.is_in_think_block
        full_answer := b1.full_answer ++ s
        citations :=
          if ex b1.full_answer = [] then b1.citations
          else (b1.citations ++ ex b1.full_answer).dedup } : StreamBuffer).content.length + 1)
    { content := b1.content
      is_in_think_block := b1.is_in_think_block
      full_answer := b1.full_answer ++ s
      citations :=
        if ex b1.full_answer = [] then b1.citations
        else (b1.citations ++ ex b1.full_answer).dedup }
    (by simpa using hlt) (by omega)
  conv_lhs => simp only [drain_loop, drain_loop_fuel, hE, if_neg hs]
  rw [hcongr]
  simp only [drain_loop]

/-- Every event yielded by the drain loop is non-final. -/
theorem drain_loop_fuel_not_final (ex : CitationExtractor) :
    ∀ fuel (b : StreamBuffer), ∀ a ∈ (drain_loop_fuel ex fuel b).1,
      a.is_final = false := by
  intro fuel
  induction fuel with
  | zero => intro b a ha; simp [drain_loop_fuel] at ha
  | succ fuel ih =>
    intro b a ha
    simp only [drain_loop_fuel] at ha
    cases hE : extract_think_block b with
    | mk r b1 =>
      rw [hE] at ha
      cases r with
      | none => simp at ha
      | some s =>
        by_cases hs : s = []
        · simp [hs] at ha
        · simp only [if_neg hs, List.mem_cons] at ha
          rcases ha with rfl | ha
          · rfl
          · exact ih _ a ha

theorem drain_loop_not_final (ex : CitationExtractor) (b : StreamBuffer) :
    ∀ a ∈ (drain_loop ex b).1, a.is_final = false :=
  drain_loop_fuel_not_final ex _ b

/-- After the drain loop stops, the buffer is empty or inside a think
block. -/
theorem drain_loop_fuel_stuck (ex : CitationExtractor) :
    ∀ fuel (b : StreamBuffer), b.content.length < fuel →
      (drain_loop_fuel ex fuel b).2.content = [] ∨
        (drain_loop_fuel ex fuel b).2.is_in_think_block = true := by
  intro fuel
  induction fuel with
  | zero => intro b hb; omega
  | succ fuel ih =>
    intro b hb
    simp only [drain_loop_fuel]
    cases hE : extract_think_block b with
    | mk r b1 =>
      cases r with
      | none => exact extract_stuck hE (Or.inl rfl)
      | some s =>
        by_cases hs : s = []
        · subst hs
          simp only [if_pos rfl]
          exact extract_stuck hE (Or.inr rfl)
        · simp only [if_neg hs]
          have hlt := extract_shrinks hE hs
          exact ih _ (by simpa using by omega)

theorem drain_loop_stuck (ex : CitationExtractor) (b : StreamBuffer) :
    (drain_loop ex b).2.content = [] ∨ (drain_loop ex b).2.is_in_think_block = true :=
  drain_loop_fuel_stuck ex _ b (by omega)

/-! ## Citation monotonicity machinery -/

/-- Membership inclusion of citation lists (the only order-independent
reading of `list(set(...))`). -/
def csub (xs ys : List (List Char)) : Prop := ∀ c ∈ xs, c ∈ ys

theorem csub_refl (xs : List (List Char)) : csub xs xs := fun _ h => h

theorem csub_trans {xs ys zs : List (List Char)} (h1 : csub xs ys)
    (h2 : csub ys zs) : csub xs zs := fun c hc => h2 c (h1 c hc)

theorem csub_nil (ys : List (List Char)) : csub [] ys := by
  intro c hc; simp at hc

theorem csub_of_csub_nil {xs ys : List (List Char)} (h : csub xs []) :
    csub xs ys := by
  intro c hc
  exact absurd (h c hc) (by simp)

theorem csub_dedup_append (xs ys : List (List Char)) :
    csub xs ((xs ++ ys).dedup) := by
  intro c hc
  simp [List.mem_dedup, hc]

/-- The left citation list grows into the right one along the event list:
`pre ⊆ evs₀.citations ⊆ evs₁.citations ⊆ … ⊆ post`. -/
def mono_from : List (List Char) → List AuxKnowAnswer → List (List Char) → Prop
  | pre, [], post => csub pre post
  | pre, e :: l, post => csub pre e.citations ∧ mono_from e.citations l post

theorem mono_from_weaken {p p' : List (List Char)} {l : List AuxKnowAnswer}
    {q : List (List Char)} (hp : csub p' p) (h : mono_from p l q) :
    mono_from p' l q := by
  cases l with
  | nil => exact csub_trans hp h
  | cons e l => exact ⟨csub_trans hp h.1, h.2⟩

theorem mono_from_post {p : List (List Char)} {l : List AuxKnowAnswer}
    {q q' : List (List Char)} (h : mono_from p l q) (hq : csub q q') :
    mono_from p l q' := by
  induction l generalizing p with
  | nil => exact csub_trans h hq
  | cons e l ih => exact ⟨h.1, ih h.2⟩

theorem mono_from_append {p m q : List (List Char)} {l₁ l₂ : List AuxKnowAnswer}
    (h1 : mono_from p l₁ m) (h2 : mono_from m l₂ q) :
    mono_from p (l₁ ++ l₂) q := by
  induction l₁ generalizing p with
  | nil => exact mono_from_weaken h1 h2
  | cons e l ih => exact ⟨h1.1, ih h1.2⟩

/-- The C6 property: every citation of an event is present in the next
event's citations. -/
def citations_monotone (l : List AuxKnowAnswer) : Prop :=
  l.Chain' fun a b => ∀ c ∈ a.citations, c ∈ b.citations

/-- Executable form of `citations_monotone`, for evaluating concrete
event lists. -/
def citations_monotone_b : List AuxKnowAnswer → Bool
  | [] => true
  | [_] => true
  | a :: b :: l =>
    (a.citations.all fun c => b.citations.contains c) && citations_monotone_b (b :: l)

theorem citations_monotone_iff (l : List AuxKnowAnswer) :
    citations_monotone l ↔ citations_monotone_b l = true := by
  match l with
  | [] => simp [citations_monotone, citations_monotone_b]
  | [a] => simp [citations_monotone, citations_monotone_b]
  | a :: b :: l =>
    rw [citations_monotone, List.chain'_cons, ← citations_monotone,
      citations_monotone_b]
    rw [citations_monotone_iff (b :: l)]
    simp [List.all_eq_true, List.elem_iff]

theorem mono_from_chain {p q : List (List Char)} {l : List AuxKnowAnswer}
    (h : mono_from p l q) : citations_monotone l := by
  induction l generalizing p with
  | nil => exact List.chain'_nil
  | cons e l ih =>
    cases l with
    | nil => simp [citations_monotone]
    | cons f l =>
      exact List.Chain'.cons h.2.1 (ih h.2)

/-- Citations only ever grow through the drain loop, and grow
monotonically along its events. -/
theorem drain_loop_fuel_mono (ex : CitationExtractor) :
    ∀ fuel (b : StreamBuffer), b.content.length < fuel →
      mono_from b.citations (drain_loop_fuel ex fuel b).1
        (drain_loop_fuel ex fuel b).2.citations := by
  intro fuel
  induction fuel with
  | zero => intro b hb; omega
  | succ fuel ih =>
    intro b hb
    simp only [drain_loop_fuel]
    cases hE : extract_think_block b with
    | mk r b1 =>
      have hc := (extract_preserves_answer b).2
      rw [hE] at hc
      cases r with
      | none =>
        show csub b.citations b1.citations
        rw [← hc]
        exact csub_refl _
      | some s =>
        by_cases hs : s = []
        · subst hs
          simp only [if_pos rfl]
          show csub b.citations b1.citations
          rw [← hc]
          exact csub_refl _
        · simp only [if_neg hs]
          have hlt := extract_shrinks hE hs
          refine ⟨?_, ih
            { content := b1.content
              is_in_think_block := b1.is_in_think_block
              full_answer := b1.full_answer ++ s
              citations :=
                if ex b1.full_answer = [] then b1.citations
                else (b1.citations ++ ex b1.full_answer).dedup }
            (by show b1.content.length < fuel; omega)⟩
          show csub b.citations _
          rw [← hc]
          split
          · exact csub_refl _
          · exact csub_dedup_append _ _

theorem drain_loop_mono (ex : CitationExtractor) (b : StreamBuffer) :
    mono_from b.citations (drain_loop ex b).1 (drain_loop ex b).2.citations :=
  drain_loop_fuel_mono ex _ b (by omega)

/-! ## Invariants of the chunk loop and the final section -/

theorem process_response_not_final (ex : CitationExtractor) (b : StreamBuffer)
    (r : ChunkResponse) : ∀ a ∈ (process_response ex b r).1, a.is_final = false := by
  rcases r with ⟨rc, rcit⟩
  cases rcit <;> cases rc <;> simp only [process_response] <;>
    (try split) <;> (try split) <;>
    first
      | simp
      | (intro a ha
         exact drain_loop_not_final ex _ a ha)

theorem process_response_stuck (ex : CitationExtractor) (b : StreamBuffer)
    (r : ChunkResponse) (hb : b.content = [] ∨ b.is_in_think_block = true) :
    (process_response ex b r).2.content = [] ∨
      (process_response ex b r).2.is_in_think_block = true := by
  rcases r with ⟨rc, rcit⟩
  cases rcit <;> cases rc <;> simp only [process_response] <;>
    (try split) <;> (try split) <;>
    first
      | simpa using hb
      | (left; split <;> rfl)
      | exact drain_loop_stuck ex _

theorem drain_loop_mono_pre (ex : CitationExtractor) {pre : List (List Char)}
    (B : StreamBuffer) (hpre : csub pre B.citations) :
    mono_from pre (drain_loop ex B).1 (drain_loop ex B).2.citations :=
  mono_from_weaken hpre (drain_loop_mono ex B)

theorem process_response_mono (ex : CitationExtractor) (b : StreamBuffer)
    (r : ChunkResponse) :
    mono_from b.citations (process_response ex b r).1
      (process_response ex b r).2.citations := by
  rcases r with ⟨rc, rcit⟩
  cases rcit <;> cases rc <;> simp only [process_response] <;>
    (try split) <;> (try split) <;>
    first
      | exact csub_refl _
      | exact csub_dedup_append _ _
      | (apply drain_loop_mono_pre ex
         intro c hc
         simp only [List.mem_dedup, List.mem_append]
         first | exact hc | exact Or.inl hc)
      | (refine ⟨?_, csub_refl _⟩
         intro c hc
         simp only [List.mem_dedup, List.mem_append]
         first
           | exact hc
           | exact Or.inl hc
           | (split <;> simp only [List.mem_dedup, List.mem_append] <;>
               first | exact hc | exact Or.inl hc | exact Or.inl (Or.inl hc)))

theorem process_loop_not_final (ex : CitationExtractor) (rs : List ChunkResponse)
    (b : StreamBuffer) : ∀ a ∈ (process_loop ex rs b).1, a.is_final = false := by
  induction rs generalizing b with
  | nil => simp [process_loop]
  | cons r rs ih =>
    intro a ha
    simp only [process_loop, List.mem_append] at ha
    rcases ha with ha | ha
    · exact process_response_not_final ex b r a ha
    · exact ih _ a ha

theorem process_loop_stuck (ex : CitationExtractor) (rs : List ChunkResponse)
    (b : StreamBuffer) (hb : b.content = [] ∨ b.is_in_think_block = true) :
    (process_loop ex rs b).2.content = [] ∨
      (process_loop ex rs b).2.is_in_think_block = true := by
  induction rs generalizing b with
  | nil => simpa [process_loop] using hb
  | cons r rs ih =>
    simp only [process_loop]
    exact ih _ (process_response_stuck ex b r hb)

theorem process_loop_mono (ex : CitationExtractor) (rs : List ChunkResponse)
    (b : StreamBuffer) :
    mono_from b.citations (process_loop ex rs b).1 (process_loop ex rs b).2.citations := by
  induction rs generalizing b with
  | nil => exact csub_refl _
  | cons r rs ih =>
    simp only [process_loop]
    exact mono_from_append (process_response_mono ex b r) (ih _)

/-- Shape of `process_stream`: the chunk-loop events followed by exactly
one final event carrying the accumulated `full_answer` and a citation
list extending the loop's.  The "remaining content" double-final branch
(lines 190-196 of stream_processor.py) is dead code, by
`process_loop_stuck`. -/
theorem process_stream_eq (ex : CitationExtractor) (rs : List ChunkResponse) :
    ∃ cits, csub (process_loop ex rs {}).2.citations cits ∧
      process_stream ex rs =
        (process_loop ex rs {}).1 ++
          [⟨(process_loop ex rs {}).2.full_answer, cits, true⟩] := by
  have hstuck := process_loop_stuck ex rs {} (Or.inl rfl)
  have hcond : ¬ (({ (process_loop ex rs {}).2 with
        citations := final_citations ex (process_loop ex rs {}).2 } : StreamBuffer).content ≠ [] ∧
      ({ (process_loop ex rs {}).2 with
        citations := final_citations ex (process_loop ex rs {}).2 } : StreamBuffer).is_in_think_block = false) := by
    rcases hstuck with h | h
    · intro hc
      exact hc.1 h
    · intro hc
      have h2 : (process_loop ex rs {}).2.is_in_think_block = false := hc.2
      rw [h] at h2
      exact absurd h2 (by simp)
  refine ⟨final_citations ex (process_loop ex rs {}).2, ?_, ?_⟩
  · unfold final_citations
    split
    · exact csub_refl _
    · split
      · exact csub_refl _
      · exact csub_dedup_append _ _
  · simp only [process_stream]
    rw [if_neg hcond]

theorem finalize_event_is_final (g : List Char → List (List Char))
    (ev : AuxKnowAnswer) : (finalize_event g ev).is_final = ev.is_final := by
  unfold finalize_event
  split <;> rfl

theorem finalize_event_not_final {g : List Char → List (List Char)}
    {ev : AuxKnowAnswer} (h : ev.is_final = false) : finalize_event g ev = ev := by
  unfold finalize_event
  rw [if_neg (by simp [h])]

/-- "Exactly one event with `isFinal = true`, and it is the last": the
list is a run of non-final events closed by one final event. -/
def one_final_last (l : List AuxKnowAnswer) : Prop :=
  ∃ pre e, l = pre ++ [e] ∧ e.is_final = true ∧ ∀ a ∈ pre, a.is_final = false

/-! ## Claims -/

/-- C1.  For every input chunk stream (and under every provider outcome),
the event sequence produced by `StreamProcessor.process_stream` and by
`AuxKnow.ask_stream` contains exactly one event with `isFinal = true`,
and that event is the last element of the sequence. -/
theorem c1_exactly_one_final_and_last (ex : CitationExtractor)
    (fb : List Char → List (List Char)) (rs : List ChunkResponse)
    (o : StreamCallOutcome) :
    one_final_last (process_stream ex rs) ∧ one_final_last (ask_stream ex fb o) := by
  have hps : ∀ rs', one_final_last (process_stream ex rs') := by
    intro rs'
    obtain ⟨cits, -, heq⟩ := process_stream_eq ex rs'
    exact ⟨_, _, heq, rfl, process_loop_not_final ex rs' {}⟩
  refine ⟨hps rs, ?_⟩
  match o with
  | .prepError msg => exact ⟨[], _, rfl, rfl, by simp⟩
  | .failure rs' =>
    exact ⟨_, _, rfl, rfl, process_loop_not_final ex rs' {}⟩
  | .success rs' =>
    obtain ⟨pre, e, heq, hfin, hpre⟩ := hps rs'
    refine ⟨pre.map (finalize_event fb), finalize_event fb e, ?_, ?_, ?_⟩
    · show (process_stream ex rs').map (finalize_event fb) = _
      rw [heq, List.map_append]
      rfl
    · rw [finalize_event_is_final, hfin]
    · intro a ha
      simp only [List.mem_map] at ha
      obtain ⟨x, hx, rfl⟩ := ha
      rw [finalize_event_is_final]
      exact hpre x hx

/-- C7.  When the provider call or the chunk source raises,
`AuxKnow.ask_stream` emits (after any already-delivered non-final events)
a single final `AnswerEvent` whose text is the fixed apology string with
empty citations, and blocking `AuxKnow.ask` returns a final apology
event; the exception is never propagated (the embedding of both entry
points is a total function into answer values). -/
theorem c7_failure_apology (ex : CitationExtractor)
    (fb : List Char → List (List Char)) (rs : List ChunkResponse) :
    (∃ pre, ask_stream ex fb (.failure rs) =
        pre ++ [⟨STREAM_ERROR_ANSWER, [], true⟩] ∧
        ∀ a ∈ pre, a.is_final = false) ∧
      ask fb .failure = ⟨ERROR_DEFAULT, [], true⟩ :=
  ⟨⟨(process_loop ex rs {}).1, rfl, process_loop_not_final ex rs {}⟩, rfl⟩

/-- C10.  Every iteration of the `while True:` drain loop that continues
(i.e. `extract_think_block` returned a truthy value: `some s` with
`s ≠ ""`) strictly shortens the buffer content, so the loop between two
chunk pulls always terminates — this measure is exactly the one that
justifies the recursion of `drain_loop`. -/
theorem c10_drain_loop_terminates (b : StreamBuffer) (s : List Char)
    (b' : StreamBuffer) (h : extract_think_block b = (some s, b'))
    (hs : s ≠ []) : b'.content.length < b.content.length :=
  extract_shrinks h hs

/-- Witness for C10 at a concrete buffer: flushing content `"abc"`
(no markers, outside a think block) empties the buffer. -/
theorem c10_drain_loop_terminates_witness :
    extract_think_block ⟨"abc".toList, false, [], []⟩ =
        (some "abc".toList, ⟨[], false, [], []⟩) ∧
      ("abc".toList ≠ []) ∧
      (⟨[], false, [], []⟩ : StreamBuffer).content.length <
        (⟨"abc".toList, false, [], []⟩ : StreamBuffer).content.length := by
  refine ⟨by decide, by decide, ?_⟩
  exact c10_drain_loop_terminates ⟨"abc".toList, false, [], []⟩ "abc".toList
    ⟨[], false, [], []⟩ (by decide) (by decide)

/-! ## Marker-free streams flush verbatim -/

/-- `extract_think_block` makes no progress on an empty buffer outside a
think block. -/
theorem extract_empty_outside (B : StreamBuffer) (hc : B.content = [])
    (hf : B.is_in_think_block = false) : extract_think_block B = (none, B) := by
  unfold extract_think_block
  rw [hf, hc]
  have h0 : findSub ([] : List Char) thinkStart = none := by decide
  simp [h0]

/-- Draining after appending a single chunk with no start marker (while
outside a think block over an empty buffer) flushes the chunk verbatim as
one event. -/
theorem drain_flush (ex : CitationExtractor) (b : StreamBuffer) (chunk : List Char)
    (hout : b.is_in_think_block = false) (hchunk : chunk ≠ [])
    (hfind : findSub chunk thinkStart = none) :
    drain_loop ex { b with content := chunk } =
      ([⟨chunk,
         (if ex b.full_answer = [] then b.citations
          else (b.citations ++ ex b.full_answer).dedup), false⟩],
       { content := [], is_in_think_block := b.is_in_think_block,
         full_answer := b.full_answer ++ chunk,
         citations := (if ex b.full_answer = [] then b.citations
          else (b.citations ++ ex b.full_answer).dedup) }) := by
  have hE : extract_think_block { b with content := chunk } =
      (some chunk, { b with content := [] }) := by
    unfold extract_think_block
    simp [hout, hfind, hchunk]
  rw [drain_loop_cons ex _ _ chunk hE hchunk]
  simp only []
  have hE2 := extract_empty_outside
    ({ content := [], is_in_think_block := b.is_in_think_block,
       full_answer := b.full_answer ++ chunk,
       citations := if ex b.full_answer = [] then b.citations
         else (b.citations ++ ex b.full_answer).dedup } : StreamBuffer) rfl hout
  rw [drain_loop_none ex _ _ hE2]

/-- A response whose chunk contains no start marker contributes its text
verbatim, leaving the buffer empty and outside a think block. -/
theorem process_response_no_marker (ex : CitationExtractor) (b : StreamBuffer)
    (r : ChunkResponse) (hb : b.content = []) (hout : b.is_in_think_block = false)
    (hno : ∀ t, r.content = some t → findSub t thinkStart = none) :
    (process_response ex b r).2.content = [] ∧
    (process_response ex b r).2.is_in_think_block = false ∧
    (process_response ex b r).2.full_answer = b.full_answer ++ r.content.getD [] ∧
    ((process_response ex b r).1.map AuxKnowAnswer.answer).flatten = r.content.getD [] := by
  rcases r with ⟨rc, rcit⟩
  have hmerge : ∀ (bm : StreamBuffer), bm.content = b.content →
      bm.is_in_think_block = b.is_in_think_block → bm.full_answer = b.full_answer →
      ∀ t, rc = some t → ¬ t = [] →
      (drain_loop ex { bm with content := bm.content ++ t }).2.content = [] ∧
      (drain_loop ex { bm with content := bm.content ++ t }).2.is_in_think_block = false ∧
      (drain_loop ex { bm with content := bm.content ++ t }).2.full_answer =
        b.full_answer ++ t ∧
      ((drain_loop ex { bm with content := bm.content ++ t }).1.map
        AuxKnowAnswer.answer).flatten = t := by
    intro bm hmc hmf hma t ht htne
    have hfind : findSub t thinkStart = none := hno t ht
    have hnilapp : bm.content ++ t = t := by rw [hmc, hb]; rfl
    rw [hnilapp]
    rw [drain_flush ex bm t (by rw [hmf, hout]) htne hfind]
    refine ⟨rfl, by rw [hmf, hout], by simp [hma], by simp⟩
  cases rcit <;> cases rc <;>
    simp only [process_response]
  case none.none => simp [hb, hout]
  case some.none => simp [hb, hout]
  case none.some t =>
    split
    · next hte => simp [hb, hout, hte]
    · next htne =>
      split
      · next hguard =>
        -- impossible: the chunk has no start marker
        rw [hno t rfl] at hguard
        simp at hguard
      · have := hmerge b rfl rfl rfl t rfl htne
        simpa using this
  case some.some cs t =>
    split
    · next hte => simp [hb, hout, hte]
    · next htne =>
      split
      · next hguard =>
        rw [hno t rfl] at hguard
        simp at hguard
      · have := hmerge { b with citations := (b.citations ++ cs).dedup }
          rfl rfl rfl t rfl htne
        simpa using this

theorem process_loop_no_marker (ex : CitationExtractor) (rs : List ChunkResponse)
    (b : StreamBuffer) (hb : b.content = []) (hout : b.is_in_think_block = false)
    (hno : ∀ r ∈ rs, ∀ t, r.content = some t → findSub t thinkStart = none) :
    (process_loop ex rs b).2.content = [] ∧
    (process_loop ex rs b).2.is_in_think_block = false ∧
    (process_loop ex rs b).2.full_answer =
      b.full_answer ++ (rs.map (fun r => r.content.getD [])).flatten ∧
    ((process_loop ex rs b).1.map AuxKnowAnswer.answer).flatten =
      (rs.map (fun r => r.content.getD [])).flatten := by
  induction rs generalizing b with
  | nil => simp [process_loop, hb, hout]
  | cons r rs ih =>
    obtain ⟨h1, h2, h3, h4⟩ := process_response_no_marker ex b r hb hout
      (fun t ht => hno r (by simp) t ht)
    obtain ⟨g1, g2, g3, g4⟩ := ih (process_response ex b r).2 h1 h2
      (fun r' hr' => hno r' (by simp [hr']))
    simp only [process_loop, List.map_cons, List.flatten_cons]
    refine ⟨g1, g2, ?_, ?_⟩
    · rw [g3, h3, List.append_assoc]
    · rw [List.map_append, List.flatten_append, h4, g4]

/-- C5.  If the concatenation of all chunk texts contains neither
reasoning marker, the final `full_answer` of `process_stream` is exactly
that concatenation — nothing added, dropped, reordered or duplicated. -/
theorem c5_no_marker_verbatim (ex : CitationExtractor) (rs : List ChunkResponse)
    (hstart : ¬ thinkStart <:+: (rs.map (fun r => r.content.getD [])).flatten)
    (hend : ¬ thinkEnd <:+: (rs.map (fun r => r.content.getD [])).flatten) :
    (process_stream ex rs).getLast?.map AuxKnowAnswer.answer =
      some ((rs.map (fun r => r.content.getD [])).flatten) := by
  have hno : ∀ r ∈ rs, ∀ t, r.content = some t → findSub t thinkStart = none := by
    intro r hr t ht
    have hmem : t ∈ rs.map (fun r => r.content.getD []) := by
      refine List.mem_map.mpr ⟨r, hr, ?_⟩
      rw [ht]; rfl
    have hinf := List.infix_of_mem_flatten hmem
    exact findSub_eq_none fun hin => hstart (hin.trans hinf)
  obtain ⟨-, -, h3, -⟩ := process_loop_no_marker ex rs {} rfl rfl hno
  obtain ⟨cits, -, heq⟩ := process_stream_eq ex rs
  rw [heq, List.getLast?_concat]
  rw [h3]
  rfl

/-- Witness for C5: the marker-free stream `["Hello ", "world"]`
reassembles verbatim to `"Hello world"`. -/
theorem c5_no_marker_verbatim_witness :
    (¬ thinkStart <:+:
        (([⟨some "Hello ".toList, none⟩,
           ⟨some "world".toList, none⟩] : List ChunkResponse).map
            (fun r => r.content.getD [])).flatten) ∧
    (¬ thinkEnd <:+:
        (([⟨some "Hello ".toList, none⟩,
           ⟨some "world".toList, none⟩] : List ChunkResponse).map
            (fun r => r.content.getD [])).flatten) ∧
    (process_stream (fun _ => [])
        [⟨some "Hello ".toList, none⟩, ⟨some "world".toList, none⟩]).getLast?.map
        AuxKnowAnswer.answer = some "Hello world".toList := by
  refine ⟨by decide, by decide, ?_⟩
  have h := c5_no_marker_verbatim (fun _ => [])
    [⟨some "Hello ".toList, none⟩, ⟨some "world".toList, none⟩]
    (by decide) (by decide)
  simpa using h

theorem map_finalize_not_final (g : List Char → List (List Char))
    (l : List AuxKnowAnswer) (h : ∀ a ∈ l, a.is_final = false) :
    l.map (finalize_event g) = l := by
  induction l with
  | nil => rfl
  | cons a l ih =>
    rw [List.map_cons, finalize_event_not_final (h a (by simp)),
      ih fun x hx => h x (by simp [hx])]

/-- C2 (divergence witness).  Streaming the start marker split across two
chunks as `"<thi"`, `"nk>"` produces a final `full_answer` equal to the
literal marker `"<think>"`: the claimed invariant — `fullAnswer` never
contains a marker string — fails on the code (the repository's own
`test_partial_think_blocks` asserts the claimed behaviour and fails). -/
theorem c2_marker_leak :
    (process_stream (fun _ => [])
        [⟨some "<thi".toList, none⟩, ⟨some "nk>".toList, none⟩]).getLast?.map
        AuxKnowAnswer.answer = some "<think>".toList ∧
      thinkStart <:+: "<think>".toList := by decide

/-- C3 (divergence witness).  The spec's own scenario — chunks `"<thi"`,
`"nk>proc"`, `"essing</thi"`, `"nk>result"`, i.e. one complete pair split
across chunk boundaries — yields the final answer
`"<think>processing</think>result"` instead of `"result"`: nothing is
removed, because the extractor flushes the pending buffer as visible text
whenever no *complete* start marker is present, so a split marker never
assembles (the repository test `test_partial_think_blocks` asserts
`"result"` and fails on this code). -/
theorem c3_split_marker_not_removed :
    (process_stream (fun _ => [])
        [⟨some "<thi".toList, none⟩, ⟨some "nk>proc".toList, none⟩,
         ⟨some "essing</thi".toList, none⟩,
         ⟨some "nk>result".toList, none⟩]).getLast?.map
        AuxKnowAnswer.answer = some "<think>processing</think>result".toList ∧
      "<think>processing</think>result".toList ≠ "result".toList := by decide

/-- C4 (divergence witness).  In state INSIDE with the end marker in the
buffer, `extract_think_block` *returns* the remainder after the marker as
a visible span (lines 67-72 of stream_processor.py) while also leaving it
in the buffer, so `process_stream` appends it to `full_answer` twice:
chunks `"<think>abc"`, `"def</think>xyz"` end with `full_answer =
"xyzxyz"`.  The claim (and §4.2 step 1 of the spec, and the inline
state machine in the legacy `src/auxknow/auxknow.py`, which discards the
marker without emitting) says this step emits nothing and the remainder
is appended at most once. -/
theorem c4_inside_end_emits_remainder :
    extract_think_block ⟨"abc</think>xyz".toList, true, [], []⟩ =
        (some "xyz".toList, ⟨"xyz".toList, false, [], []⟩) ∧
      (process_stream (fun _ => [])
        [⟨some "<think>abc".toList, none⟩,
         ⟨some "def</think>xyz".toList, none⟩]).getLast?.map
        AuxKnowAnswer.answer = some "xyzxyz".toList := by decide

/-- C6 (counterexample).  When the chunk source raises after a chunk that
carried a citation, the final apology event has empty citations, so the
citation sets of successive events of that `ask_stream` call are not
non-decreasing. -/
theorem c6_counterexample :
    ¬ citations_monotone (ask_stream (fun _ => []) (fun _ => [])
        (.failure [⟨some "x".toList, some ["u1".toList]⟩])) := by
  rw [citations_monotone_iff]
  decide

/-- C6 (amended).  On every non-failing path — `process_stream` itself,
a preparation error, and a successfully completed stream — citation sets
are monotonically non-decreasing across successive events; on the
exception path, monotonicity still holds among all events before the
final apology event (whose citations are empty). -/
theorem c6_citations_monotone_amended (ex : CitationExtractor)
    (fb : List Char → List (List Char)) (msg : List Char)
    (rs : List ChunkResponse) :
    citations_monotone (process_stream ex rs) ∧
    citations_monotone (ask_stream ex fb (.prepError msg)) ∧
    citations_monotone (ask_stream ex fb (.success rs)) ∧
    citations_monotone ((process_loop ex rs {}).1) := by
  have hm := process_loop_mono ex rs {}
  obtain ⟨cits, hsub, heq⟩ := process_stream_eq ex rs
  refine ⟨?_, ?_, ?_, mono_from_chain hm⟩
  · rw [heq]
    exact mono_from_chain (mono_from_append hm ⟨hsub, csub_refl _⟩)
  · show citations_monotone [⟨msg, [], true⟩]
    simp [citations_monotone]
  · show citations_monotone ((process_stream ex rs).map (finalize_event fb))
    rw [heq, List.map_append,
      map_finalize_not_final fb _ (process_loop_not_final ex rs {})]
    refine mono_from_chain (mono_from_append hm ⟨csub_trans hsub ?_, csub_refl _⟩)
    show csub cits
      (if cits = [] then fb ((process_loop ex rs {}).2.full_answer) else cits)
    split
    · next hc => subst hc; exact csub_nil _
    · exact csub_refl _

theorem finalize_event_final (g : List Char → List (List Char))
    (a : List Char) (cs : List (List Char)) :
    finalize_event g ⟨a, cs, true⟩ = ⟨a, if cs = [] then g a else cs, true⟩ := by
  unfold finalize_event
  simp

/-- C8.  In both `ask` and `ask_stream`, the citation fallback
(`get_citations`, re-querying with the finished answer) runs exactly when
the inline citation set is empty at final-event time: when it is empty
the fallback's result becomes the final event's citations; when it is
non-empty the output does not depend on the fallback function at all
(so the fallback is not invoked). -/
theorem c8_citation_fallback (ex : CitationExtractor)
    (fb fb' : List Char → List (List Char)) (rs : List ChunkResponse)
    (text : List Char) (rc : List (List Char)) (e : AuxKnowAnswer)
    (hlast : (process_stream ex rs).getLast? = some e) :
    (e.citations = [] →
      (ask_stream ex fb (.success rs)).getLast? =
        some ⟨e.answer, fb e.answer, true⟩) ∧
    (e.citations ≠ [] →
      ask_stream ex fb (.success rs) = ask_stream ex fb' (.success rs)) ∧
    (rc = [] → ask fb (.success text rc) =
      ⟨clean_ask_response text, fb (clean_ask_response text), true⟩) ∧
    (rc ≠ [] → ask fb (.success text rc) = ask fb' (.success text rc)) := by
  obtain ⟨cits, hsub, heq⟩ := process_stream_eq ex rs
  have he : e = ⟨(process_loop ex rs {}).2.full_answer, cits, true⟩ := by
    rw [heq, List.getLast?_concat] at hlast
    exact (Option.some_inj.mp hlast).symm
  refine ⟨?_, ?_, ?_, ?_⟩
  · intro hc
    show ((process_stream ex rs).map (finalize_event fb)).getLast? = _
    rw [heq, List.map_append, List.map_cons, List.map_nil, List.getLast?_concat,
      finalize_event_final]
    rw [he] at hc ⊢
    simp only at hc
    rw [if_pos hc]
  · intro hc
    rw [he] at hc
    simp only at hc
    show (process_stream ex rs).map (finalize_event fb) =
      (process_stream ex rs).map (finalize_event fb')
    rw [heq, List.map_append, List.map_append, List.map_cons, List.map_nil,
      List.map_cons, List.map_nil,
      map_finalize_not_final fb _ (process_loop_not_final ex rs {}),
      map_finalize_not_final fb' _ (process_loop_not_final ex rs {}),
      finalize_event_final, finalize_event_final, if_neg hc, if_neg hc]
  · intro hrc
    subst hrc
    show (⟨clean_ask_response text,
      if ([] : List (List Char)).dedup = [] then fb (clean_ask_response text)
      else ([] : List (List Char)).dedup, true⟩ : AuxKnowAnswer) = _
    simp
  · intro hrc
    have hd : rc.dedup ≠ [] := by
      simpa [List.dedup_eq_nil] using hrc
    show (⟨clean_ask_response text,
      if rc.dedup = [] then fb (clean_ask_response text) else rc.dedup, true⟩ :
        AuxKnowAnswer) = ⟨clean_ask_response text,
      if rc.dedup = [] then fb' (clean_ask_response text) else rc.dedup, true⟩
    rw [if_neg hd, if_neg hd]

/-- Witness for C8 at concrete inputs: a stream with no inline citations
takes the fallback's result as the final citations, and a blocking ask
with an empty `citations` attribute does the same. -/
theorem c8_citation_fallback_witness :
    (process_stream (fun _ => []) [⟨some "hi".toList, none⟩]).getLast? =
        some ⟨"hi".toList, [], true⟩ ∧
    (ask_stream (fun _ => []) (fun _ => ["u1".toList])
        (.success [⟨some "hi".toList, none⟩])).getLast? =
        some ⟨"hi".toList, ["u1".toList], true⟩ ∧
    ask (fun _ => ["u1".toList]) (.success "hi".toList []) =
      ⟨"hi".toList, ["u1".toList], true⟩ := by
  have h := c8_citation_fallback (fun _ => []) (fun _ => ["u1".toList])
    (fun _ => []) [⟨some "hi".toList, none⟩] "hi".toList []
    ⟨"hi".toList, [], true⟩ (by decide)
  exact ⟨by decide, h.1 rfl, h.2.2.1 rfl⟩

/-! ## C9: blocking vs streaming -/

/-- Concatenation of the text of every non-final streamed event. -/
def streamed_text (l : List AuxKnowAnswer) : List Char :=
  ((l.filter fun a => !a.is_final).map AuxKnowAnswer.answer).flatten

theorem collapse_newlines_fuel_id :
    ∀ fuel (s : List Char), s.length < fuel → ¬ (['\n', '\n', '\n'] <:+: s) →
      collapse_newlines_fuel fuel s = s := by
  intro fuel
  induction fuel with
  | zero => intro s hs hn; omega
  | succ fuel ih =>
    intro s hs hn
    match s with
    | [] => rfl
    | c :: t =>
      have hst : t.length < fuel := by
        simp only [List.length_cons] at hs
        omega
      simp only [collapse_newlines_fuel]
      by_cases hc : c = '\n'
      · subst hc
        rw [if_pos rfl]
        have htw : t.takeWhile (· == '\n') =
            List.replicate (t.takeWhile (· == '\n')).length '\n' := by
          rw [List.eq_replicate_iff]
          refine ⟨rfl, fun b hb => ?_⟩
          have := List.mem_takeWhile_imp hb
          simpa using this
        have hk : ¬ 3 ≤ (t.takeWhile (· == '\n')).length + 1 := by
          intro hge
          apply hn
          have hpre2 : List.replicate 2 '\n' <+: t.takeWhile (· == '\n') := by
            rw [htw]
            refine ⟨List.replicate ((t.takeWhile (· == '\n')).length - 2) '\n', ?_⟩
            rw [← List.replicate_add]
            congr 1
            omega
          have hpre : ['\n', '\n'] <+: t :=
            hpre2.trans (List.takeWhile_prefix _)
          exact (List.cons_prefix_cons.mpr ⟨rfl, hpre⟩).isInfix
        rw [if_neg hk]
        have hnd : ¬ (['\n', '\n', '\n'] <:+: t.dropWhile (· == '\n')) := by
          intro hin
          exact hn ((hin.trans (List.dropWhile_suffix _).isInfix).trans
            (List.suffix_cons '\n' t).isInfix)
        have hbd : (t.dropWhile (· == '\n')).length < fuel := by
          have : (t.dropWhile (fun x => x == '\n')).length ≤ t.length :=
            (List.dropWhile_suffix (fun x => x == '\n')).length_le
          omega
        rw [ih _ hbd hnd]
        rw [List.replicate_succ]
        show '\n' :: (List.replicate (t.takeWhile (· == '\n')).length '\n' ++
          t.dropWhile (· == '\n')) = '\n' :: t
        rw [← htw, List.takeWhile_append_dropWhile]
      · rw [if_neg hc]
        have hnt : ¬ (['\n', '\n', '\n'] <:+: t) := by
          intro hin
          exact hn (hin.trans (List.suffix_cons c t).isInfix)
        rw [ih t hst hnt]

/-- `re.sub(r"\n{3,}", ...)` is the identity on text without a run of
three newlines. -/
theorem collapse_newlines_id {s : List Char}
    (h : ¬ (['\n', '\n', '\n'] <:+: s)) : collapse_newlines s = s :=
  collapse_newlines_fuel_id _ s (by omega) h

/-- C9 (counterexample).  The blocking path collapses blank-line runs
(and strips whitespace) but the streaming path does not: for the
marker-free text `"a\n\n\n\nb"` fed as a single chunk, blocking `ask`
produces `"a\n\nb"` while concatenating the non-final streamed events
reproduces `"a\n\n\n\nb"` verbatim. -/
theorem c9_counterexample :
    clean_ask_response "a\n\n\n\nb".toList ≠
      streamed_text (process_stream (fun _ => [])
        [⟨some "a\n\n\n\nb".toList, none⟩]) := by
  decide

/-- C9 (amended).  For response texts with no reasoning markers, no
leading or trailing whitespace, and no run of three or more consecutive
newlines, the blocking clean-up of the whole text equals the
concatenation of the non-final streamed events, for every chunking of
the text. -/
theorem c9_block_stream_agree (ex : CitationExtractor) (t : List Char)
    (chunks : List (List Char)) (hjoin : chunks.flatten = t)
    (hstart : ¬ thinkStart <:+: t) (hend : ¬ thinkEnd <:+: t)
    (hstrip : pyStrip t = t) (hnl : ¬ (['\n', '\n', '\n'] <:+: t)) :
    clean_ask_response t =
      streamed_text (process_stream ex (chunks.map fun c => ⟨some c, none⟩)) := by
  have hmap : ((chunks.map fun c => (⟨some c, none⟩ : ChunkResponse)).map
      fun r => r.content.getD []) = chunks := by
    have hcomp : ((fun r : ChunkResponse => r.content.getD []) ∘
        fun c : List Char => (⟨some c, none⟩ : ChunkResponse)) = id := by
      funext c
      rfl
    rw [List.map_map, hcomp, List.map_id]
  have hno : ∀ r ∈ chunks.map fun c => (⟨some c, none⟩ : ChunkResponse),
      ∀ u, r.content = some u → findSub u thinkStart = none := by
    intro r hr u hu
    have hmem : u ∈ (chunks.map fun c => (⟨some c, none⟩ : ChunkResponse)).map
        fun r => r.content.getD [] := by
      refine List.mem_map.mpr ⟨r, hr, ?_⟩
      rw [hu]
      rfl
    rw [hmap] at hmem
    have hinf := List.infix_of_mem_flatten hmem
    rw [hjoin] at hinf
    exact findSub_eq_none fun hin => hstart (hin.trans hinf)
  obtain ⟨-, -, -, h4⟩ := process_loop_no_marker ex
    (chunks.map fun c => ⟨some c, none⟩) {} rfl rfl hno
  obtain ⟨cits, -, heq⟩ := process_stream_eq ex (chunks.map fun c => ⟨some c, none⟩)
  have hstream : streamed_text
      (process_stream ex (chunks.map fun c => ⟨some c, none⟩)) = t := by
    rw [heq]
    unfold streamed_text
    have hns : ∀ a ∈ (process_loop ex (chunks.map fun c =>
        (⟨some c, none⟩ : ChunkResponse)) {}).1, (!a.is_final) = true := by
      intro a ha
      simp [process_loop_not_final ex
        (chunks.map fun c => (⟨some c, none⟩ : ChunkResponse)) {} a ha]
    rw [List.filter_append, List.filter_eq_self.mpr hns]
    have hfin : List.filter (fun a : AuxKnowAnswer => !a.is_final)
        ([⟨(process_loop ex (chunks.map fun c =>
            (⟨some c, none⟩ : ChunkResponse)) {}).2.full_answer, cits, true⟩] :
          List AuxKnowAnswer) = [] := rfl
    rw [hfin, List.append_nil, h4, hmap, hjoin]
  rw [hstream]
  unfold clean_ask_response
  split
  · rfl
  · rw [remove_think_blocks_no_marker (findSub_eq_none hstart), hstrip,
      collapse_newlines_id hnl]

/-- Witness for C9 (amended) at a concrete input: the clean text `"ab"`
chunked as `["a", "b"]`. -/
theorem c9_block_stream_agree_witness :
    (["a".toList, "b".toList].flatten = "ab".toList) ∧
    (¬ thinkStart <:+: "ab".toList) ∧ (¬ thinkEnd <:+: "ab".toList) ∧
    (pyStrip "ab".toList = "ab".toList) ∧
    (¬ (['\n', '\n', '\n'] <:+: "ab".toList)) ∧
    clean_ask_response "ab".toList =
      streamed_text (process_stream (fun _ => [])
        (["a".toList, "b".toList].map fun c => ⟨some c, none⟩)) := by
  refine ⟨by decide, by decide, by decide, by decide, by decide, ?_⟩
  exact c9_block_stream_agree (fun _ => []) "ab".toList
    ["a".toList, "b".toList] (by decide) (by decide) (by decide)
    (by decide) (by decide)

end AuxKnow
